import Mathlib

/-!
Formal model of the segment-annotation engine of the spoken-dialogue
annotation tool: the segment data model, the provisional-marker handling,
the commit/merge algorithm of the waveform component, slot aggregation,
selection tracking and annotation persistence, translated from the App
component, the waveform component and the file utilities.
-/

namespace AnnotationTool

/-- Times on the audio timeline, in seconds (JS numbers in the source). -/
abbrev Time := ℚ

/-- The 0.001-second tolerance used by the commit algorithm both for
boundary-moved detection and for locating the inserted segment. -/
def tol : Time := 1/1000

/-- A committed utterance segment.  The field `stop` embeds the source
field `end` (a reserved word in Lean). -/
structure Segment where
  start : Time
  stop : Time
deriving DecidableEq

/-- One committed-boundary marker of the waveform display, labelled with a
1-based segment number and a start/end kind in the source; `index` is the
already-decoded 0-based segment index and `isStart` the kind. -/
structure ExistingMarker where
  index : ℕ
  isStart : Bool
  time : Time
deriving DecidableEq

/-- One step of the existing-marker pass of handleConfirmMarkerPositions:
if the marker points into the segment list and its time differs from the
recorded boundary by more than the tolerance, overwrite that boundary and
record that a change happened. -/
def applyMarker (acc : List Segment × Bool) (m : ExistingMarker) : List Segment × Bool :=
  if m.index < acc.1.length then
    if m.isStart then
      if tol < |(acc.1.getD m.index ⟨0, 0⟩).start - m.time| then
        (acc.1.set m.index ⟨m.time, (acc.1.getD m.index ⟨0, 0⟩).stop⟩, true)
      else acc
    else
      if tol < |(acc.1.getD m.index ⟨0, 0⟩).stop - m.time| then
        (acc.1.set m.index ⟨(acc.1.getD m.index ⟨0, 0⟩).start, m.time⟩, true)
      else acc
  else acc

/-- The existing-marker pass of handleConfirmMarkerPositions: fold over all
committed-boundary markers, overwriting moved boundaries in place. -/
def updateExisting (segs : List Segment) (markers : List ExistingMarker) :
    List Segment × Bool :=
  markers.foldl applyMarker (segs, false)

/-- Insertion of the provisional segment: before the first existing segment
whose start is strictly greater than the new start (via findIndex in the
source, building the result with two slices), or at the back when none
qualifies. -/
def insertTemp (segs : List Segment) (ns : Segment) : List Segment :=
  match segs.findIdx? (fun seg => decide (ns.start < seg.start)) with
  | none => segs ++ [ns]
  | some i => segs.take i ++ ns :: segs.drop i

/-- The re-sort of the committed list by ascending start; JS Array sort with
the comparator on start is a stable sort, embedded as insertion sort. -/
def sortByStart (l : List Segment) : List Segment :=
  l.insertionSort (fun a b => a.start ≤ b.start)

/-- Locating the freshly inserted segment in the sorted list: the first
segment whose start and stop both match the provisional times within the
tolerance; none models the -1 result of findIndex. -/
def findNewIndex (l : List Segment) (ts te : Time) : Option ℕ :=
  l.findIdx? (fun seg => decide (|seg.start - ts| < tol ∧ |seg.stop - te| < tol))

/-- handleConfirmMarkerPositions of the waveform component.  Input: the
committed segments, the committed-boundary markers, and the provisional
pair when both temporary markers exist.  Output: none when no change was
detected (onMarkerSet is not called), otherwise the new segment list
together with the selection index passed to onMarkerSelect (none when the
inserted segment is not found or no segment was inserted). -/
def handleConfirmMarkerPositions (segs : List Segment) (markers : List ExistingMarker)
    (temp : Option (Time × Time)) : Option (List Segment × Option ℕ) :=
  match temp with
  | some (ts, te) =>
      some (sortByStart (insertTemp (updateExisting segs markers).1 ⟨ts, te⟩),
        findNewIndex (sortByStart (insertTemp (updateExisting segs markers).1 ⟨ts, te⟩)) ts te)
  | none =>
      if (updateExisting segs markers).2 then
        some (sortByStart (updateExisting segs markers).1, none)
      else none

/-- The provisional marker pair of the waveform component (the two
temporary markers, identified by label in the source). -/
structure TempMarkers where
  tempStart : Option Time
  tempEnd : Option Time
deriving DecidableEq

/-- handleClick of the waveform component, restricted to the provisional
markers: with no start marker, place it; with a start marker and no end
marker, place the end marker only when the clicked time is strictly after
the start; otherwise do nothing. -/
def handleClick (st : TempMarkers) (time : Time) : TempMarkers :=
  match st.tempStart with
  | none => { st with tempStart := some time }
  | some s =>
      match st.tempEnd with
      | some _ => st
      | none => if s < time then { st with tempEnd := some time } else st

/-- handleMarkerDrag for the provisional start marker: the source computes
min of the dragged time and (endMarker time or Infinity), where the JS
falsy-or makes an end marker sitting at time 0 behave like a missing one
(no clamping). -/
def dragTempStart (time : Time) (endTime : Option Time) : Time :=
  match endTime with
  | some e => if e = 0 then time else min time e
  | none => time

/-- handleMarkerDrag for the provisional end marker: the source computes
max of the dragged time and (startMarker time or 0); the falsy-or fallback
0 coincides with a start marker sitting at 0. -/
def dragTempEnd (time : Time) (startTime : Option Time) : Time :=
  match startTime with
  | some s => if s = 0 then max time 0 else max time s
  | none => max time 0

/-- A key/value slot. -/
structure SlotValue where
  key : String
  value : String
deriving DecidableEq

/-- Two slots carry the same key/value pair. -/
def kvEq (a b : SlotValue) : Prop := a.key = b.key ∧ a.value = b.value

/-- The predicate handed to findIndex in the dedup filter of the source:
candidate t matches slot x when both key and value coincide. -/
def kvPred (x : SlotValue) : SlotValue → Bool :=
  fun t => decide (t.key = x.key ∧ t.value = x.value)

/-- The dedup filter of the source, written with an explicit running index:
self.filter((slot, index, self) => index === self.findIndex(s => s.key ===
slot.key && s.value === slot.value)). -/
def dedupGo (orig : List SlotValue) : ℕ → List SlotValue → List SlotValue
  | _, [] => []
  | i, s :: rest =>
      if orig.findIdx (kvPred s) = i then s :: dedupGo orig (i + 1) rest
      else dedupGo orig (i + 1) rest

/-- uniqueDialogueSlots of the App component: keep each slot exactly when
its index is the first index carrying its key/value pair. -/
def uniqueDialogueSlots (l : List SlotValue) : List SlotValue :=
  dedupGo l 0 l

/-- A turn: its segments (exactly one in normal operation), an intent and
the turn-level slots. -/
structure Turn where
  segments : List Segment
  intent : String
  slots : List SlotValue
deriving DecidableEq

/-- The per-conversation annotation record, DialogueAnnotation in the
source types. -/
structure DialogueAnnotationData where
  customerId : String
  conversationId : String
  turns : List Turn
  dialogueSlots : List SlotValue
deriving DecidableEq

/-- allTurnSlots of the App component: flatMap of the slots of every turn. -/
def allTurnSlots (turns : List Turn) : List SlotValue :=
  turns.flatMap Turn.slots

/-- handleTurnSlotsChange of the App component: overwrite the slots of the
addressed turn, then recompute the dialogue-level slots as the deduplicated
union of all turn slots. -/
def handleTurnSlotsChange (ann : DialogueAnnotationData) (slots : List SlotValue)
    (turnIndex : ℕ) : DialogueAnnotationData :=
  match ann.turns[turnIndex]? with
  | some t =>
      { ann with
        turns := ann.turns.set turnIndex { t with slots := slots },
        dialogueSlots :=
          uniqueDialogueSlots (allTurnSlots (ann.turns.set turnIndex { t with slots := slots })) }
  | none =>
      { ann with dialogueSlots := uniqueDialogueSlots (allTurnSlots ann.turns) }

/-- handleMarkerSet of the App component: rebuild the turn list from the
incoming segments; the turn at each position keeps the intent and slots of
the previous turn at the same position (empty intent and slots beyond the
old length) and receives the incoming segment as its single segment.  The
source dereferences segments[0] of every previous turn, which throws when
a previous turn has no segment; that failure is modelled as none. -/
def handleMarkerSet (ann : DialogueAnnotationData) (segments : List Segment) :
    Option DialogueAnnotationData :=
  if ann.turns.all (fun t => decide (t.segments ≠ [])) then
    some { ann with
      turns := segments.enum.map (fun p =>
        let e := (ann.turns.map (fun t =>
          { t with segments := [⟨(t.segments.headD ⟨0, 0⟩).start,
                                (t.segments.headD ⟨0, 0⟩).stop⟩] })).getD p.1 ⟨[], "", []⟩
        { e with segments := [⟨p.2.start, p.2.stop⟩] }) }
  else none

/-- handleMarkerSelect of the App component: the selection becomes exactly
the given index. -/
def handleMarkerSelect (index : ℕ) : ℕ := index

/-- handleDeleteTurn of the App component: remove the turn at the given
position and remap the selection (equal: reset to 0; greater: decrement;
otherwise unchanged). -/
def handleDeleteTurn (ann : DialogueAnnotationData) (sel p : ℕ) :
    DialogueAnnotationData × ℕ :=
  ({ ann with turns := ann.turns.eraseIdx p },
   if sel = p then 0 else if p < sel then sel - 1 else sel)

/-- The persisted cache directory, one JSON document per file name. -/
abbrev CacheStore := List (String × DialogueAnnotationData)

/-- The cache file name used by both save and load. -/
def annotationFileKey (customerId conversationId : String) : String :=
  customerId ++ "_" ++ conversationId ++ ".json"

/-- saveAnnotation of the file utilities: (over)write the document stored
under the key derived from the id pair. -/
def saveAnnotationData (customerId conversationId : String)
    (a : DialogueAnnotationData) (store : CacheStore) : CacheStore :=
  (annotationFileKey customerId conversationId, a) ::
    store.filter (fun p => !(p.1 == annotationFileKey customerId conversationId))

/-- loadAnnotation of the file utilities: read the document stored under
the key and rebuild the annotation, taking customerId and conversationId
from the arguments and turns and dialogueSlots from the parsed document. -/
def loadAnnotationData (customerId conversationId : String) (store : CacheStore) :
    Option DialogueAnnotationData :=
  match List.lookup (annotationFileKey customerId conversationId) store with
  | none => none
  | some parsed =>
      some { customerId := customerId, conversationId := conversationId,
             turns := parsed.turns, dialogueSlots := parsed.dialogueSlots }

/-- A small concrete annotation used by witnesses. -/
def annEx : DialogueAnnotationData :=
  ⟨"cust", "conv", [⟨[⟨0, 1⟩], "greet", [⟨"a", "1"⟩]⟩, ⟨[⟨2, 3⟩], "", []⟩], []⟩

/-- C3: with a provisional start marker placed and no end marker, clicking
at a time less than or equal to the start time is rejected: no end marker
is created and the provisional pair is unchanged. -/
theorem placeMarker_awaitingEnd_rejected (s time : Time) (h : time ≤ s) :
    handleClick ⟨some s, none⟩ time = ⟨some s, none⟩ := by
  simp [handleClick, not_lt.mpr h]

/-- Witness for C3 at start time 5 and clicked time 3. -/
theorem placeMarker_awaitingEnd_rejected_witness :
    handleClick ⟨some 5, none⟩ 3 = ⟨some 5, none⟩ :=
  placeMarker_awaitingEnd_rejected 5 3 (by norm_num)

/-- C5: deleting the turn at position p resets the selection to 0 when it
pointed at p, decrements it when it pointed past p, and leaves it alone
otherwise; the turn list loses exactly the element at p; with selection 2
and deletion at 0 the new selection is 1. -/
theorem deleteTurn_selection_mapping (ann : DialogueAnnotationData) (sel p : ℕ) :
    (sel = p → (handleDeleteTurn ann sel p).2 = 0)
    ∧ (sel ≠ p → p < sel → (handleDeleteTurn ann sel p).2 = sel - 1)
    ∧ (sel ≠ p → ¬ p < sel → (handleDeleteTurn ann sel p).2 = sel)
    ∧ (handleDeleteTurn ann sel p).1.turns = ann.turns.eraseIdx p
    ∧ (handleDeleteTurn ann 2 0).2 = 1 := by
  refine ⟨fun h => by simp [handleDeleteTurn, h],
    fun h1 h2 => by simp [handleDeleteTurn, h1, h2],
    fun h1 h2 => by simp [handleDeleteTurn, h1, h2],
    rfl, by simp [handleDeleteTurn]⟩

/-- Witness for C5: selection 2, deletion at index 0, new selection 1. -/
theorem deleteTurn_selection_mapping_witness :
    (handleDeleteTurn annEx 2 0).2 = 2 - 1 :=
  (deleteTurn_selection_mapping annEx 2 0).2.1 (by decide) (by decide)

/-- C8 counterexample: dragging the provisional start marker to time 4
while the provisional end marker sits at 4 yields start time 4, so the
dragged pair violates the claimed strict start < end. -/
theorem drag_clamp_equality_cex :
    dragTempStart 4 (some 4) = 4 ∧ ¬ ((4 : Time) < 4) := by
  constructor
  · norm_num [dragTempStart]
  · exact lt_irrefl 4

/-- C8 amended: a dragged provisional start marker is clamped to at most
the end time whenever the end time is nonzero (at end time 0 the falsy
fallback disables the clamp), a dragged provisional end marker is clamped
to at least the start time, and the clamp admits equality, so only
start ≤ end rather than strict start < end is maintained. -/
theorem drag_clamp_bounds (t s e : Time) (he : e ≠ 0) :
    dragTempStart t (some e) ≤ e
    ∧ s ≤ dragTempEnd t (some s)
    ∧ dragTempStart e (some e) = e := by
  refine ⟨?_, ?_, ?_⟩
  · simp [dragTempStart, he, min_le_right]
  · by_cases hs : s = 0
    · subst hs; simp [dragTempEnd, le_max_right]
    · simp [dragTempEnd, hs, le_max_right]
  · simp [dragTempStart, he]

/-- Witness for C8 amended at t = 2, s = 1, e = 4. -/
theorem drag_clamp_bounds_witness :
    dragTempStart 2 (some 4) ≤ 4
    ∧ (1 : Time) ≤ dragTempEnd 2 (some 1)
    ∧ dragTempStart 4 (some 4) = 4 :=
  drag_clamp_bounds 2 1 4 (by norm_num)

/-- C9: saving an annotation under its own id pair and loading with the
same pair returns the same annotation. -/
theorem save_load_roundtrip (cid cvid : String) (a : DialogueAnnotationData)
    (store : CacheStore) (h1 : a.customerId = cid) (h2 : a.conversationId = cvid) :
    loadAnnotationData cid cvid (saveAnnotationData cid cvid a store) = some a := by
  cases a with
  | mk c v tns ds =>
      simp only [DialogueAnnotationData.customerId] at h1
      simp only [DialogueAnnotationData.conversationId] at h2
      subst h1
      subst h2
      simp [loadAnnotationData, saveAnnotationData, List.lookup]

/-- Witness for C9 on the concrete example annotation. -/
theorem save_load_roundtrip_witness :
    loadAnnotationData "cust" "conv" (saveAnnotationData "cust" "conv" annEx []) = some annEx :=
  save_load_roundtrip "cust" "conv" annEx [] rfl rfl

/-- A marker within tolerance of the boundary it points at leaves the
existing-marker pass untouched. -/
theorem applyMarker_no_move (segs : List Segment) (m : ExistingMarker)
    (h : m.index < segs.length →
      |(if m.isStart then (segs.getD m.index ⟨0, 0⟩).start
        else (segs.getD m.index ⟨0, 0⟩).stop) - m.time| ≤ tol) :
    applyMarker (segs, false) m = (segs, false) := by
  by_cases hidx : m.index < segs.length
  · have habs := h hidx
    rw [List.getD_eq_getElem _ _ hidx] at habs
    by_cases hst : m.isStart
    · rw [if_pos hst] at habs
      simp [applyMarker, hidx, hst, not_lt.mpr habs]
    · rw [if_neg hst] at habs
      simp [applyMarker, hidx, hst, not_lt.mpr habs]
  · simp [applyMarker, hidx]

/-- When every committed-boundary marker is within tolerance of its
boundary, the existing-marker pass returns the original list and records
no change. -/
theorem updateExisting_no_move (segs : List Segment) (markers : List ExistingMarker)
    (hm : ∀ m ∈ markers, m.index < segs.length →
      |(if m.isStart then (segs.getD m.index ⟨0, 0⟩).start
        else (segs.getD m.index ⟨0, 0⟩).stop) - m.time| ≤ tol) :
    updateExisting segs markers = (segs, false) := by
  induction markers with
  | nil => rfl
  | cons m ms ih =>
      have h1 : applyMarker (segs, false) m = (segs, false) :=
        applyMarker_no_move segs m (hm m (List.mem_cons_self m ms))
      calc updateExisting segs (m :: ms)
          = ms.foldl applyMarker (applyMarker (segs, false) m) := rfl
        _ = ms.foldl applyMarker (segs, false) := by rw [h1]
        _ = (segs, false) := ih (fun x hx => hm x (List.mem_cons_of_mem m hx))

/-- Concrete evaluation of the commit: committing provisional pair (3,4)
into segments [(0,2), (5,7)] yields [(0,2), (3,4), (5,7)] with the
selection index 1 reported. -/
theorem commit_scenario_eval :
    handleConfirmMarkerPositions [⟨0, 2⟩, ⟨5, 7⟩] [] (some (3, 4))
      = some ([⟨0, 2⟩, ⟨3, 4⟩, ⟨5, 7⟩], some 1) := by
  have h1 : insertTemp [(⟨0, 2⟩ : Segment), ⟨5, 7⟩] ⟨3, 4⟩ = [⟨0, 2⟩, ⟨3, 4⟩, ⟨5, 7⟩] := by
    decide
  have h2 : sortByStart [(⟨0, 2⟩ : Segment), ⟨3, 4⟩, ⟨5, 7⟩] = [⟨0, 2⟩, ⟨3, 4⟩, ⟨5, 7⟩] := by
    decide
  have h3 : findNewIndex [(⟨0, 2⟩ : Segment), ⟨3, 4⟩, ⟨5, 7⟩] 3 4 = some 1 := by
    simp only [findNewIndex, List.findIdx?_cons]
    norm_num [tol]
  have h0 : updateExisting [(⟨0, 2⟩ : Segment), ⟨5, 7⟩] [] = ([⟨0, 2⟩, ⟨5, 7⟩], false) := rfl
  simp only [handleConfirmMarkerPositions, h0, h1, h2, h3]

/-- C1: with a provisional pair present and no committed boundary moved
beyond tolerance, the commit inserts the new segment before the first
segment with strictly greater start (appending when none qualifies), sorts
by ascending start, and reports the index found by matching start and stop
within the tolerance; concretely, committing (3,4) into [(0,2), (5,7)]
yields [(0,2), (3,4), (5,7)] with inserted index 1. -/
theorem commit_inserts_provisional_sorted (segs : List Segment)
    (markers : List ExistingMarker) (ts te : Time)
    (hm : ∀ m ∈ markers, m.index < segs.length →
      |(if m.isStart then (segs.getD m.index ⟨0, 0⟩).start
        else (segs.getD m.index ⟨0, 0⟩).stop) - m.time| ≤ tol) :
    handleConfirmMarkerPositions segs markers (some (ts, te))
      = some (sortByStart (insertTemp segs ⟨ts, te⟩),
          findNewIndex (sortByStart (insertTemp segs ⟨ts, te⟩)) ts te)
    ∧ handleConfirmMarkerPositions [⟨0, 2⟩, ⟨5, 7⟩] [] (some (3, 4))
        = some ([⟨0, 2⟩, ⟨3, 4⟩, ⟨5, 7⟩], some 1) := by
  refine ⟨?_, commit_scenario_eval⟩
  simp only [handleConfirmMarkerPositions, updateExisting_no_move segs markers hm]

/-- Witness for C1: markers exactly on the boundaries of a one-segment
list, provisional pair (3,4). -/
theorem commit_inserts_provisional_sorted_witness :
    handleConfirmMarkerPositions [⟨0, 2⟩] [⟨0, true, 0⟩, ⟨0, false, 2⟩] (some (3, 4))
      = some (sortByStart (insertTemp [⟨0, 2⟩] ⟨3, 4⟩),
          findNewIndex (sortByStart (insertTemp [⟨0, 2⟩] ⟨3, 4⟩)) 3 4) :=
  (commit_inserts_provisional_sorted [⟨0, 2⟩] [⟨0, true, 0⟩, ⟨0, false, 2⟩] 3 4
    (by intro m hm hidx
        simp only [List.mem_cons, List.not_mem_nil, or_false] at hm
        rcases hm with rfl | rfl
        · norm_num [tol]
        · norm_num [tol])).1

/-- C7: with no provisional pair and no committed boundary moved beyond
the tolerance, the commit detects no change and issues no replacement. -/
theorem commit_noop_without_changes (segs : List Segment)
    (markers : List ExistingMarker)
    (hm : ∀ m ∈ markers, m.index < segs.length →
      |(if m.isStart then (segs.getD m.index ⟨0, 0⟩).start
        else (segs.getD m.index ⟨0, 0⟩).stop) - m.time| ≤ tol) :
    handleConfirmMarkerPositions segs markers none = none := by
  simp only [handleConfirmMarkerPositions, updateExisting_no_move segs markers hm]
  simp

/-- Witness for C7: a marker sitting exactly on its boundary triggers no
replacement. -/
theorem commit_noop_without_changes_witness :
    handleConfirmMarkerPositions [⟨0, 2⟩] [⟨0, true, 0⟩] none = none :=
  commit_noop_without_changes [⟨0, 2⟩] [⟨0, true, 0⟩]
    (by intro m hm hidx
        simp only [List.mem_singleton] at hm
        subst hm
        norm_num [tol])

/-- The provisional segment is always an element of the list produced by
the commit insertion step. -/
theorem mem_insertTemp (segs : List Segment) (ns : Segment) :
    ns ∈ insertTemp segs ns := by
  unfold insertTemp
  cases h : segs.findIdx? (fun seg => decide (ns.start < seg.start)) with
  | none => simp
  | some i => simp

/-- Sorting by start permutes the list, hence preserves membership. -/
theorem mem_sortByStart (l : List Segment) (x : Segment) (hx : x ∈ l) :
    x ∈ sortByStart l :=
  (List.perm_insertionSort (fun a b : Segment => a.start ≤ b.start) l).mem_iff.mpr hx

/-- C4 counterexample: committing the degenerate provisional pair (2,2)
(end = start, hence end ≤ start) into the empty list is not rejected: the
commit issues a replacement containing the invalid segment and selects it;
likewise the marker-set replacement accepts a list holding the invalid
segment.  No InvalidSegmentError exists anywhere in the code. -/
theorem commit_accepts_degenerate_pair_cex :
    handleConfirmMarkerPositions [] [] (some (2, 2)) = some ([⟨2, 2⟩], some 0)
    ∧ (handleMarkerSet ⟨"c", "v", [], []⟩ [⟨2, 2⟩]).isSome = true
    ∧ ¬ ((2 : Time) < 2) := by
  refine ⟨?_, by decide, lt_irrefl 2⟩
  have h1 : insertTemp [] (⟨2, 2⟩ : Segment) = [⟨2, 2⟩] := by decide
  have h2 : sortByStart [(⟨2, 2⟩ : Segment)] = [⟨2, 2⟩] := by decide
  have h3 : findNewIndex [(⟨2, 2⟩ : Segment)] 2 2 = some 0 := by
    simp only [findNewIndex, List.findIdx?_cons]
    norm_num [tol]
  simp only [handleConfirmMarkerPositions, updateExisting, List.foldl_nil, h1, h2, h3]

/-- C4 amended: neither the commit nor the marker-set replacement
validates segments.  A provisional pair with end ≤ start is committed like
any other pair: the commit returns a replacement list containing the
degenerate segment; and the marker-set replacement accepts an arbitrary
segment list whenever every previous turn carries a segment. -/
theorem commit_no_validation (segs : List Segment) (markers : List ExistingMarker)
    (ts te : Time) (hte : te ≤ ts)
    (hm : ∀ m ∈ markers, m.index < segs.length →
      |(if m.isStart then (segs.getD m.index ⟨0, 0⟩).start
        else (segs.getD m.index ⟨0, 0⟩).stop) - m.time| ≤ tol)
    (ann : DialogueAnnotationData) (newSegs : List Segment)
    (hann : ∀ t ∈ ann.turns, t.segments ≠ []) :
    (∃ l sel, handleConfirmMarkerPositions segs markers (some (ts, te)) = some (l, sel)
      ∧ ⟨ts, te⟩ ∈ l)
    ∧ ∃ ann2, handleMarkerSet ann newSegs = some ann2 := by
  constructor
  · refine ⟨sortByStart (insertTemp segs ⟨ts, te⟩),
      findNewIndex (sortByStart (insertTemp segs ⟨ts, te⟩)) ts te, ?_, ?_⟩
    · simp only [handleConfirmMarkerPositions, updateExisting_no_move segs markers hm]
    · exact mem_sortByStart _ _ (mem_insertTemp segs ⟨ts, te⟩)
  · have hguard : ann.turns.all (fun t => decide (t.segments ≠ [])) = true := by
      rw [List.all_eq_true]
      intro t ht
      exact decide_eq_true (hann t ht)
    exact ⟨_, by rw [handleMarkerSet, if_pos hguard]⟩

/-- Witness for C4 amended: degenerate pair (2,2) on the empty store. -/
theorem commit_no_validation_witness :
    (∃ l sel, handleConfirmMarkerPositions [] [] (some (2, 2)) = some (l, sel)
      ∧ (⟨2, 2⟩ : Segment) ∈ l)
    ∧ ∃ ann2, handleMarkerSet ⟨"c", "v", [], []⟩ [⟨2, 2⟩] = some ann2 :=
  commit_no_validation [] [] 2 2 le_rfl (by intro m hm; cases hm)
    ⟨"c", "v", [], []⟩ [⟨2, 2⟩] (by intro t ht; cases ht)

/-- C6 counterexample: with committed segments [(0,2), (5,7)] and current
selection 1, committing the pair (3,4) inserts at position 1; the claimed
rule demands the new selection 1 + 1 = 2, but the code reports index 1 to
the marker-select handler, which sets the selection to exactly 1. -/
theorem insertion_selection_cex :
    handleConfirmMarkerPositions [⟨0, 2⟩, ⟨5, 7⟩] [] (some (3, 4))
      = some ([⟨0, 2⟩, ⟨3, 4⟩, ⟨5, 7⟩], some 1)
    ∧ handleMarkerSelect 1 = 1
    ∧ (1 : ℕ) ≠ 1 + 1 :=
  ⟨commit_scenario_eval, rfl, by decide⟩

/-- C6 amended: a commit with a provisional pair reports the index located
by the tolerance match on the sorted result, and the selection is then set
to exactly that index by the marker-select handler, independently of any
previous selection; the previous selection is never incremented. -/
theorem insertion_selection_direct (segs : List Segment)
    (markers : List ExistingMarker) (ts te : Time)
    (hm : ∀ m ∈ markers, m.index < segs.length →
      |(if m.isStart then (segs.getD m.index ⟨0, 0⟩).start
        else (segs.getD m.index ⟨0, 0⟩).stop) - m.time| ≤ tol) :
    ∃ l sel, handleConfirmMarkerPositions segs markers (some (ts, te)) = some (l, sel)
      ∧ sel = findNewIndex l ts te
      ∧ ∀ i, sel = some i → handleMarkerSelect i = i := by
  refine ⟨sortByStart (insertTemp segs ⟨ts, te⟩),
    findNewIndex (sortByStart (insertTemp segs ⟨ts, te⟩)) ts te, ?_, rfl, fun i _ => rfl⟩
  simp only [handleConfirmMarkerPositions, updateExisting_no_move segs markers hm]

/-- Witness for C6 amended on the scenario input. -/
theorem insertion_selection_direct_witness :
    ∃ l sel, handleConfirmMarkerPositions [⟨0, 2⟩, ⟨5, 7⟩] [] (some (3, 4)) = some (l, sel)
      ∧ sel = findNewIndex l 3 4
      ∧ ∀ i, sel = some i → handleMarkerSelect i = i :=
  insertion_selection_direct [⟨0, 2⟩, ⟨5, 7⟩] [] 3 4 (by intro m hm; cases hm)

/-- Slots with the same key/value pair determine the same findIndex
predicate. -/
theorem kvPred_congr (x y : SlotValue) (h : kvEq x y) : kvPred x = kvPred y := by
  funext t
  simp [kvPred, h.1, h.2]

/-- Every element kept by the dedup filter at running index i has its first
occurrence at position at least i. -/
theorem mem_dedupGo_le (orig : List SlotValue) :
    ∀ (rest : List SlotValue) (i : ℕ) (x : SlotValue), x ∈ dedupGo orig i rest →
      i ≤ orig.findIdx (kvPred x) := by
  intro rest
  induction rest with
  | nil => intro i x hx; simp [dedupGo] at hx
  | cons s rest ih =>
      intro i x hx
      rw [dedupGo] at hx
      by_cases hc : orig.findIdx (kvPred s) = i
      · rw [if_pos hc] at hx
        rcases List.mem_cons.mp hx with rfl | hx2
        · exact le_of_eq hc.symm
        · exact Nat.le_of_succ_le (ih (i + 1) x hx2)
      · rw [if_neg hc] at hx
        exact Nat.le_of_succ_le (ih (i + 1) x hx)

/-- The dedup filter output carries no duplicated key/value pair. -/
theorem dedupGo_pairwise (orig : List SlotValue) :
    ∀ (rest : List SlotValue) (i : ℕ),
      (dedupGo orig i rest).Pairwise (fun a b => ¬ kvEq a b) := by
  intro rest
  induction rest with
  | nil => intro i; simp [dedupGo]
  | cons s rest ih =>
      intro i
      rw [dedupGo]
      by_cases hc : orig.findIdx (kvPred s) = i
      · rw [if_pos hc]
        refine List.Pairwise.cons ?_ (ih (i + 1))
        intro b hb hkv
        have h1 : i + 1 ≤ orig.findIdx (kvPred b) := mem_dedupGo_le orig rest (i + 1) b hb
        rw [← kvPred_congr s b hkv, hc] at h1
        omega
      · rw [if_neg hc]
        exact ih (i + 1)

/-- Every element kept by the dedup filter occurs in the filtered list. -/
theorem dedupGo_subset (orig : List SlotValue) :
    ∀ (rest : List SlotValue) (i : ℕ) (x : SlotValue), x ∈ dedupGo orig i rest → x ∈ rest := by
  intro rest
  induction rest with
  | nil => intro i x hx; simp [dedupGo] at hx
  | cons s rest ih =>
      intro i x hx
      rw [dedupGo] at hx
      by_cases hc : orig.findIdx (kvPred s) = i
      · rw [if_pos hc] at hx
        rcases List.mem_cons.mp hx with rfl | hx2
        · exact List.mem_cons_self x rest
        · exact List.mem_cons_of_mem s (ih (i + 1) x hx2)
      · rw [if_neg hc] at hx
        exact List.mem_cons_of_mem s (ih (i + 1) x hx)

/-- An element sitting at the position returned by findIndex for its own
key/value pair survives the dedup filter. -/
theorem dedupGo_mem_of_first (orig : List SlotValue) :
    ∀ (k i : ℕ) (y : SlotValue), orig[i + k]? = some y →
      orig.findIdx (kvPred y) = i + k → y ∈ dedupGo orig i (orig.drop i) := by
  intro k
  induction k with
  | zero =>
      intro i y hy hfind
      rw [Nat.add_zero] at hy hfind
      obtain ⟨hlt, hget⟩ := List.getElem?_eq_some.mp hy
      rw [List.drop_eq_getElem_cons hlt, dedupGo]
      rw [if_pos]
      · rw [hget]
        exact List.mem_cons_self y _
      · rw [hget, hfind]
  | succ k ih =>
      intro i y hy hfind
      have hlen : i + (k + 1) < orig.length := (List.getElem?_eq_some.mp hy).1
      have hi : i < orig.length := by omega
      have hmem : y ∈ dedupGo orig (i + 1) (orig.drop (i + 1)) := by
        refine ih (i + 1) y ?_ ?_
        · rw [show i + 1 + k = i + (k + 1) by omega]
          exact hy
        · rw [show i + 1 + k = i + (k + 1) by omega]
          exact hfind
      rw [List.drop_eq_getElem_cons hi, dedupGo]
      by_cases hc : orig.findIdx (kvPred orig[i]) = i
      · rw [if_pos hc]
        exact List.mem_cons_of_mem _ hmem
      · rw [if_neg hc]
        exact hmem

/-- Completeness of dedup: every slot of the input list is represented in
its output by some slot with the same key/value pair. -/
theorem dedup_complete (l : List SlotValue) (x : SlotValue) (hx : x ∈ l) :
    ∃ y ∈ uniqueDialogueSlots l, kvEq x y := by
  have hex : ∃ t ∈ l, kvPred x t = true := ⟨x, hx, by simp [kvPred]⟩
  have hlt : l.findIdx (kvPred x) < l.length := List.findIdx_lt_length_of_exists hex
  have hy : kvPred x l[l.findIdx (kvPred x)] = true := List.findIdx_getElem (w := hlt)
  have hkv : kvEq x l[l.findIdx (kvPred x)] := by
    have := of_decide_eq_true hy
    exact ⟨this.1.symm, this.2.symm⟩
  have hfind : l.findIdx (kvPred l[l.findIdx (kvPred x)]) = l.findIdx (kvPred x) := by
    rw [← kvPred_congr x _ hkv]
  have hmem : l[l.findIdx (kvPred x)] ∈ dedupGo l 0 (l.drop 0) := by
    refine dedupGo_mem_of_first l (l.findIdx (kvPred x)) 0 _ ?_ ?_
    · rw [Nat.zero_add]
      exact List.getElem?_eq_getElem hlt
    · rw [Nat.zero_add]
      exact hfind
  rw [List.drop_zero] at hmem
  exact ⟨l[l.findIdx (kvPred x)], hmem, hkv⟩

/-- The dialogue slots produced by the turn-slot handler are the dedup of
the union of all turn slots of the updated turn list. -/
theorem turnSlotsChange_eq_dedup (ann : DialogueAnnotationData) (slots : List SlotValue)
    (turnIndex : ℕ) :
    (handleTurnSlotsChange ann slots turnIndex).dialogueSlots
      = uniqueDialogueSlots (allTurnSlots (handleTurnSlotsChange ann slots turnIndex).turns) := by
  unfold handleTurnSlotsChange
  cases ann.turns[turnIndex]? <;> rfl

/-- C2: after a turn-level slot mutation the dialogue-level slot list is
the union of all turn slots deduplicated by the key/value pair: it carries
no duplicate pair, every turn slot is represented in it, all of its
entries come from turn slots, and on the scenario where turn 0 holds a:1
and turn 1 receives a:1 and b:2 the dialogue slots are exactly a:1, b:2. -/
theorem turnSlotsChange_dialogueSlots_dedup (ann : DialogueAnnotationData)
    (slots : List SlotValue) (turnIndex : ℕ) :
    ((handleTurnSlotsChange ann slots turnIndex).dialogueSlots.Pairwise fun a b => ¬ kvEq a b)
    ∧ (∀ x ∈ allTurnSlots (handleTurnSlotsChange ann slots turnIndex).turns,
        ∃ y ∈ (handleTurnSlotsChange ann slots turnIndex).dialogueSlots, kvEq x y)
    ∧ (∀ y ∈ (handleTurnSlotsChange ann slots turnIndex).dialogueSlots,
        y ∈ allTurnSlots (handleTurnSlotsChange ann slots turnIndex).turns)
    ∧ (handleTurnSlotsChange
        ⟨"c", "v", [⟨[⟨0, 1⟩], "", [⟨"a", "1"⟩]⟩, ⟨[⟨1, 2⟩], "", []⟩], [⟨"a", "1"⟩]⟩
        [⟨"a", "1"⟩, ⟨"b", "2"⟩] 1).dialogueSlots = [⟨"a", "1"⟩, ⟨"b", "2"⟩] := by
  refine ⟨?_, ?_, ?_, by decide⟩
  · rw [turnSlotsChange_eq_dedup]
    exact dedupGo_pairwise _ _ 0
  · intro x hx
    rw [turnSlotsChange_eq_dedup]
    exact dedup_complete _ x hx
  · intro y hy
    rw [turnSlotsChange_eq_dedup] at hy
    exact dedupGo_subset _ _ 0 y hy

/-- Witness for C2: in the scenario result, the slot a:1 of turn 0 is
represented among the dialogue slots. -/
theorem turnSlotsChange_dialogueSlots_dedup_witness :
    ∃ y ∈ (handleTurnSlotsChange
        ⟨"c", "v", [⟨[⟨0, 1⟩], "", [⟨"a", "1"⟩]⟩, ⟨[⟨1, 2⟩], "", []⟩], [⟨"a", "1"⟩]⟩
        [⟨"a", "1"⟩, ⟨"b", "2"⟩] 1).dialogueSlots, kvEq ⟨"a", "1"⟩ y :=
  (turnSlotsChange_dialogueSlots_dedup
      ⟨"c", "v", [⟨[⟨0, 1⟩], "", [⟨"a", "1"⟩]⟩, ⟨[⟨1, 2⟩], "", []⟩], [⟨"a", "1"⟩]⟩
      [⟨"a", "1"⟩, ⟨"b", "2"⟩] 1).2.1 ⟨"a", "1"⟩ (by decide)

/-- Indexing into a mapped enumeration. -/
theorem enum_map_getElem? {α β : Type} (f : ℕ × α → β) (l : List α) (i : ℕ)
    (hi : i < l.length) : (l.enum.map f)[i]? = some (f (i, l[i])) := by
  simp [List.getElem?_map, List.getElem?_enum, List.getElem?_eq_getElem hi]

/-- C10: the marker-set replacement rebuilds the turn list with exactly one
turn per incoming segment; the turn at position i carries the i-th segment
as its single segment and keeps the intent and slots of the previous turn
at position i, with empty intent and slots beyond the previous length, so
turn metadata is bound purely by position. -/
theorem markerSet_rebinds_positionally (ann : DialogueAnnotationData)
    (segments : List Segment) (h : ∀ t ∈ ann.turns, t.segments ≠ []) :
    ∃ ann2, handleMarkerSet ann segments = some ann2
      ∧ ann2.turns.length = segments.length
      ∧ ∀ i, i < segments.length →
          ∃ turn seg, ann2.turns[i]? = some turn ∧ segments[i]? = some seg
            ∧ turn.segments = [seg]
            ∧ (∀ old, ann.turns[i]? = some old →
                turn.intent = old.intent ∧ turn.slots = old.slots)
            ∧ (ann.turns[i]? = none → turn.intent = "" ∧ turn.slots = []) := by
  have hguard : ann.turns.all (fun t => decide (t.segments ≠ [])) = true := by
    rw [List.all_eq_true]
    intro t ht
    exact decide_eq_true (h t ht)
  rw [handleMarkerSet, if_pos hguard]
  refine ⟨_, rfl, by simp, ?_⟩
  intro i hi
  refine ⟨_, segments[i], enum_map_getElem? _ segments i hi,
    List.getElem?_eq_getElem hi, rfl, ?_, ?_⟩
  · intro old hold
    obtain ⟨hio, hgetold⟩ := List.getElem?_eq_some.mp hold
    have he : (ann.turns.map (fun t =>
        ({ t with segments := [⟨(t.segments.headD ⟨0, 0⟩).start,
            (t.segments.headD ⟨0, 0⟩).stop⟩] } : Turn))).getD i ⟨[], "", []⟩
        = { old with segments := [⟨(old.segments.headD ⟨0, 0⟩).start,
            (old.segments.headD ⟨0, 0⟩).stop⟩] } := by
      rw [List.getD_eq_getElem _ _ (by simpa using hio), List.getElem_map, hgetold]
    constructor
    · show (_ : Turn).intent = old.intent
      rw [he]
    · show (_ : Turn).slots = old.slots
      rw [he]
  · intro hnone
    have hio : ann.turns.length ≤ i := by
      by_contra hcon
      rw [List.getElem?_eq_getElem (not_le.mp hcon)] at hnone
      exact Option.noConfusion hnone
    have he : (ann.turns.map (fun t =>
        ({ t with segments := [⟨(t.segments.headD ⟨0, 0⟩).start,
            (t.segments.headD ⟨0, 0⟩).stop⟩] } : Turn))).getD i ⟨[], "", []⟩
        = (⟨[], "", []⟩ : Turn) :=
      List.getD_eq_default _ _ (by simpa using hio)
    constructor
    · show (_ : Turn).intent = ""
      rw [he]
    · show (_ : Turn).slots = []
      rw [he]

/-- Witness for C10: two incoming segments against a previous single-turn
list keep the single previous intent at position 0. -/
theorem markerSet_rebinds_positionally_witness :
    ∃ ann2, handleMarkerSet annEx [⟨0, 2⟩, ⟨3, 4⟩, ⟨5, 7⟩] = some ann2
      ∧ ann2.turns.length = 3 := by
  obtain ⟨ann2, h1, h2, h3⟩ :=
    markerSet_rebinds_positionally annEx [⟨0, 2⟩, ⟨3, 4⟩, ⟨5, 7⟩] (by decide)
  exact ⟨ann2, h1, by simpa using h2⟩

end AnnotationTool
